import Mathlib

/-!
# Verification of the ai-indexer orchestration core

This development is a shallow embedding, in Lean, of the core of the
`ai-indexer` repository (Go): the commit cache (`commit_cache.go` part),
the skip matcher and per-repository pipeline (`repos.go` part), the
workspace isolator (`worktree.go`), the keep-alive input feeder and the
agent invoker.  External effects (git subprocesses, the codex process,
the file system, timers) are modelled by explicit environment values and
explicit state threading; machine strings are Lean `String`s and the Go
byte-level path algorithms (`filepath.Clean`, `filepath.Rel`,
`filepath.Base`, `filepath.Join`) are reproduced element-wise over
`List Char`, which is observationally the algorithm Go implements with
its `lazybuf` scanner.  Unicode-classifier library calls
(`unicode.IsLetter`, `strings.ToLower`, `unicode.IsSpace`) are modelled
by their ASCII fragments, which is the fragment every claim exercises.
-/

/-! ## Character and string helpers (ASCII fragments of Go's `strings`/`unicode`) -/

/-- ASCII lowercasing of one character: the ASCII fragment of the
character map applied by Go `strings.ToLower`. -/
def asciiLower (c : Char) : Char :=
  if 65 ≤ c.toNat ∧ c.toNat ≤ 90 then Char.ofNat (c.toNat + 32) else c

/-- Model of Go `strings.ToLower` (ASCII fragment, applied character-wise). -/
def goToLower (s : String) : String :=
  ⟨s.data.map asciiLower⟩

/-- The ASCII white-space characters recognised by Go `unicode.IsSpace`
(space, tab, newline, vertical tab, form feed, carriage return). -/
def goIsSpace (c : Char) : Bool :=
  c.toNat = 32 ∨ c.toNat = 9 ∨ c.toNat = 10 ∨ c.toNat = 11 ∨ c.toNat = 12 ∨ c.toNat = 13

/-- Model of Go `strings.TrimSpace`: drop white space from both ends. -/
def goTrimSpace (s : String) : String :=
  ⟨(((s.data.dropWhile goIsSpace).reverse.dropWhile goIsSpace)).reverse⟩

/-- Model of Go `strings.TrimPrefix(s, "./")` as used on relative paths. -/
def trimDotSlash (s : String) : String :=
  match s.data with
  | '.' :: '/' :: rest => ⟨rest⟩
  | _ => s

/-! ## Association-list operations

Go maps `map[string]V` are modelled as association lists with unique
keys; `alistInsert` is map assignment `m[k] = v` and `List.lookup` is
map indexing `v, ok := m[k]`. -/

/-- Map assignment `m[k] = v`: replace the binding of `k` if present,
otherwise append a fresh binding. -/
def alistInsert {α : Type} (l : List (String × α)) (k : String) (v : α) : List (String × α) :=
  match l with
  | [] => [(k, v)]
  | (k', v') :: rest =>
    if k' = k then (k, v) :: rest else (k', v') :: alistInsert rest k v

/-- Removal of a key, used to model `os.Rename` taking the source entry away. -/
def alistErase {α : Type} (l : List (String × α)) (k : String) : List (String × α) :=
  l.filter (fun p => p.1 ≠ k)

theorem lookup_alistInsert_self {α : Type} (l : List (String × α)) (k : String) (v : α) :
    List.lookup k (alistInsert l k v) = some v := by
  induction l with
  | nil => simp [alistInsert, List.lookup]
  | cons hd tl ih =>
    obtain ⟨k', v'⟩ := hd
    by_cases h : k' = k
    · simp [alistInsert, h, List.lookup]
    · have hne : (k == k') = false := by
        simp only [beq_eq_false_iff_ne, ne_eq]
        exact fun hh => h hh.symm
      simp [alistInsert, h, List.lookup, hne, ih]

theorem lookup_alistInsert_ne {α : Type} (l : List (String × α)) (k k' : String) (v : α)
    (h : k' ≠ k) : List.lookup k' (alistInsert l k v) = List.lookup k' l := by
  have hne : (k' == k) = false := by simpa using h
  induction l with
  | nil => simp [alistInsert, List.lookup, hne]
  | cons hd tl ih =>
    obtain ⟨a, b⟩ := hd
    by_cases ha : a = k
    · subst ha
      simp [alistInsert, List.lookup, hne]
    · simp [alistInsert, ha, List.lookup, ih]

/-! ## The commit cache (`loadCommitCache`, `Save`, `LastCommit`, `Update`)

The backing store `map[string]map[string]string` becomes a nested
association list.  The file system is an association list from paths to
file contents; a file's contents are classified by how `json.Unmarshal`
treats them: a valid serialization of a cache document (which
`json.MarshalIndent` of a cache always produces, and which round-trips
to the same document), the zero-length file, or malformed bytes. -/

/-- Nested mapping slug → branch → last indexed revision. -/
abbrev CacheData := List (String × List (String × String))

/-- Contents of a file on disk, classified by how the cache decoder
treats them: a valid serialized cache document, a zero-length file, or
bytes that fail to decode. -/
inductive FileContent : Type where
  | validDoc (d : CacheData)
  | empty
  | malformed
deriving DecidableEq

/-- File system: mapping from paths to file contents; an absent key is
`os.ErrNotExist`. -/
abbrev FS := List (String × FileContent)

/-- The `commitCache` struct. -/
structure commitCache : Type where
  data : CacheData
  path : String
deriving DecidableEq

/-- The `loadCommitCache` function: empty path or missing file gives an
empty cache, a zero-length file gives an empty cache, a malformed file
is a hard decode error, and a valid document is taken as the data. -/
def loadCommitCache (fs : FS) (path : String) : Except String commitCache :=
  let cache : commitCache := { path := path, data := [] }
  if path = "" then .ok cache
  else
    match List.lookup path fs with
    | none => .ok cache
    | some .empty => .ok cache
    | some (.validDoc d) => .ok { cache with data := d }
    | some .malformed => .error "decode commit cache"

/-- The `commitCache.Save` method: no-op on an empty path, otherwise
write the serialized document to `path + ".tmp"` and rename it over
`path` (modelled on the success path of `os.WriteFile`/`os.Rename`). -/
def commitCache.Save (c : commitCache) (fs : FS) : FS :=
  if c.path = "" then fs
  else
    let tmpPath := c.path ++ ".tmp"
    let fs1 := alistInsert fs tmpPath (FileContent.validDoc c.data)
    match List.lookup tmpPath fs1 with
    | some v => alistInsert (alistErase fs1 tmpPath) c.path v
    | none => fs1

/-- The `commitCache.LastCommit` method. -/
def commitCache.LastCommit (c : commitCache) (repoSlug branch : String) : String × Bool :=
  if repoSlug = "" ∨ branch = "" then ("", false)
  else
    match List.lookup repoSlug c.data with
    | none => ("", false)
    | some branches =>
      match List.lookup branch branches with
      | none => ("", false)
      | some commit => (commit, true)

/-- The `commitCache.Update` method: a no-op when any argument is empty,
otherwise assignment into the nested mapping (creating the inner map
when absent, exactly as the Go code does). -/
def commitCache.Update (c : commitCache) (repoSlug branch commit : String) : commitCache :=
  if repoSlug = "" ∨ branch = "" ∨ commit = "" then c
  else
    let branches := (List.lookup repoSlug c.data).getD []
    { c with data := alistInsert c.data repoSlug (alistInsert branches branch commit) }

/-! ## The keep-alive input source (`newlineFeeder`)

The feeder's two mutable fields `first` and the closed-ness of the
`done` channel form the state.  A `Read` additionally observes, in its
waiting branch, whether the channel was closed from outside while the
timer was pending; that external event is the `closeDuringWait`
parameter and is folded into the state. -/

/-- State of a `newlineFeeder`: the `first` flag and whether the `done`
channel has been closed.  `interval` is the keep-alive interval. -/
structure newlineFeeder : Type where
  interval : Nat
  first : Bool
  closed : Bool
deriving DecidableEq

/-- The `newNewlineFeeder` constructor. -/
def newNewlineFeeder (interval : Nat) : newlineFeeder :=
  { interval := interval, first := true, closed := false }

/-- Observable outcome of one `Read` call: `(0, nil)` on an empty
buffer, one newline byte, or `(0, io.EOF)`. -/
inductive ReadRes : Type where
  | nothingRead
  | newline
  | eof
deriving DecidableEq

/-- The `newlineFeeder.Read` method.  `bufLen` is `len(p)`;
`closeDuringWait` tells whether `Close` fired while the timer branch was
blocked.  The third component reports whether the call entered the
timer wait (used to state that the first read is immediate). -/
def newlineFeeder.Read (nf : newlineFeeder) (bufLen : Nat) (closeDuringWait : Bool) :
    newlineFeeder × ReadRes × Bool :=
  if bufLen = 0 then (nf, .nothingRead, false)
  else if nf.first then
    let nf := { nf with first := false }
    if nf.closed then (nf, .eof, false) else (nf, .newline, false)
  else
    if nf.closed then (nf, .eof, true)
    else if closeDuringWait then ({ nf with closed := true }, .eof, true)
    else if nf.closed then (nf, .eof, true)
    else (nf, .newline, true)

/-- The `newlineFeeder.Close` method: `sync.Once` makes closing the
channel idempotent, and the method always returns a nil error
(modelled by `none`). -/
def newlineFeeder.Close (nf : newlineFeeder) : newlineFeeder × Option String :=
  ({ nf with closed := true }, none)

/-! ## The workspace sanitizer (`sanitizePathComponent`) -/

/-- Characters kept by `sanitizePathComponent`: letters, digits, `-`,
`_`, `.` (the letter/digit tests model the ASCII fragment of
`unicode.IsLetter` / `unicode.IsDigit`). -/
def allowedRune (c : Char) : Bool :=
  c.isAlpha ∨ c.isDigit ∨ c = '-' ∨ c = '_' ∨ c = '.'

/-- The `sanitizePathComponent` function: trim, substitute `_` for every
disallowed character, with fixed fallbacks for empty and all-underscore
outcomes (Go's `strings.Trim(out, "_") == ""` test holds exactly when
every character of `out` is `_`). -/
def sanitizePathComponent (value : String) : String :=
  let value := goTrimSpace value
  if value = "" then "default"
  else
    let out := value.data.map (fun r => if allowedRune r then r else '_')
    if out.all (fun r => r = '_') then "component" else ⟨out⟩

/-! ## Go `path/filepath` on a Unix separator

`filepath.Clean` is reproduced by the element-stack formulation of its
scanner: split on `/`, drop empty and `.` elements, let `..` pop a
previous element (except past the start of a relative path, where `..`
elements accumulate, and at the root of an absolute path, where they
vanish).  `filepath.ToSlash` is the identity since the separator is
`/`. -/

/-- Splitting a character list at a separator character (the element
view of a path string; `splitChar '/' "a/b"` is `["a", "b"]`). -/
def splitChar (sep : Char) : List Char → List (List Char)
  | [] => [[]]
  | c :: rest =>
    if c = sep then [] :: splitChar sep rest
    else
      match splitChar sep rest with
      | g :: gs => (c :: g) :: gs
      | [] => [[c]]

/-- The element processor of `filepath.Clean`: `stack` holds the
already-emitted elements in reverse. -/
def cleanStack (rooted : Bool) : List (List Char) → List (List Char) → List (List Char)
  | stack, [] => stack.reverse
  | stack, e :: rest =>
    if e = [] ∨ e = ['.'] then cleanStack rooted stack rest
    else if e = ['.', '.'] then
      match stack with
      | [] => if rooted then cleanStack rooted [] rest else cleanStack rooted [['.', '.']] rest
      | top :: stack' =>
        if top = ['.', '.'] then cleanStack rooted (['.', '.'] :: top :: stack') rest
        else cleanStack rooted stack' rest
    else cleanStack rooted (e :: stack) rest

/-- Joining path elements with `/`. -/
def joinSlash : List (List Char) → List Char
  | [] => []
  | [e] => e
  | e :: rest => e ++ '/' :: joinSlash rest

/-- Model of `filepath.Clean` over the character list of a path. -/
def cleanList (l : List Char) : List Char :=
  if l = [] then ['.']
  else
    let rooted := l.head? = some '/'
    let out := joinSlash (cleanStack rooted [] (splitChar '/' l))
    if rooted then '/' :: out
    else if out = [] then ['.'] else out

/-- Model of `filepath.Clean`. -/
def goClean (s : String) : String :=
  ⟨cleanList s.data⟩

/-- Model of `filepath.ToSlash`, the identity on a Unix separator. -/
def goToSlash (s : String) : String := s

/-- Model of `filepath.IsAbs` on Unix: the path starts with `/`. -/
def goIsAbs (s : String) : Bool :=
  s.data.head? = some '/'

/-- Model of `filepath.Base`: strip trailing separators and keep the
last element, with the documented degenerate cases. -/
def goBase (s : String) : String :=
  if s.data = [] then "."
  else
    let l := s.data.reverse.dropWhile (fun c => c = '/')
    if l = [] then "/"
    else ⟨(l.takeWhile (fun c => ¬ c = '/')).reverse⟩

/-- Model of `filepath.Join` on two elements: join the non-empty
elements with `/` and `Clean` the result; all-empty input gives `""`. -/
def goJoin (a b : String) : String :=
  if a = "" ∧ b = "" then ""
  else if a = "" then goClean b
  else if b = "" then goClean a
  else goClean ⟨a.data ++ '/' :: b.data⟩

/-- Element view of a cleaned path for `filepath.Rel`'s common-prefix
scan: the empty string has no elements, the root `/` one empty element
(its leading separator), and any other cleaned path its `/`-separated
elements (an absolute path contributing a leading empty element). -/
def pathElems (s : String) : List (List Char) :=
  if s.data = [] then []
  else if s.data = ['/'] then [[]]
  else splitChar '/' s.data

/-- Common-prefix consumption and `..`-filling of `filepath.Rel`:
consume equal leading elements; if elements of the base remain and the
first of them is `..` the target is unreachable (error, `none`);
otherwise climb with one `..` per remaining base element and descend
with the remaining target elements. -/
def relGo : List (List Char) → List (List Char) → Option (List (List Char))
  | [], ts => some ts
  | b :: bs, [] =>
    if b = ['.', '.'] then none
    else some (List.replicate (bs.length + 1) ['.', '.'])
  | b :: bs, t :: ts =>
    if b = t then relGo bs ts
    else if b = ['.', '.'] then none
    else some (List.replicate (bs.length + 1) ['.', '.'] ++ t :: ts)

/-- Model of `filepath.Rel` on Unix (no volume names): `Clean` both
paths, equal paths give `.`, a base cleaning to `.` counts as no
elements, mixed absolute/relative inputs are an error, and otherwise
the element scan produces the answer. -/
def goRel (basepath targpath : String) : Option String :=
  let base := goClean basepath
  let targ := goClean targpath
  if targ = base then some "."
  else
    let base := if base = "." then "" else base
    if (goIsAbs base = goIsAbs targ) = false then none
    else
      match relGo (pathElems base) (pathElems targ) with
      | none => none
      | some parts => some ⟨joinSlash parts⟩

/-- The `computeCollectionSlug` function: the path of the repository
relative to the scan root (the literal `root` when they coincide or
`Rel` fails), separators replaced by `_`. -/
def computeCollectionSlug (rootDir repoDir : String) : String :=
  let rel := match goRel rootDir repoDir with
    | none => "root"
    | some r => if r = "." then "root" else r
  let rel := trimDotSlash rel
  ⟨rel.data.map (fun c => if c = '/' then '_' else c)⟩

/-! ## The skip matcher (`shouldSkipRepo`) -/

/-- The indexer state the claims touch: the `--skip-repo` patterns and
the shared commit cache pointer (`nil` modelled by `none`). -/
structure Indexer : Type where
  skip : List String
  cache : Option commitCache

/-- The reason text `fmt.Sprintf("repo excluded via --skip-repo %q", raw)`
(with `%q` modelled as plain double quoting). -/
def skipReasonFor (raw : String) : String :=
  "repo excluded via --skip-repo \"" ++ raw ++ "\""

/-- The pattern loop of `shouldSkipRepo`, given the precomputed
identity forms of the repository. -/
def skipMatch (rootDir slugLower repoBaseLower relLower repoAbsLower : String) :
    List String → Bool × String
  | [] => (false, "")
  | raw :: rest =>
    let pattern := goTrimSpace raw
    if pattern = "" then
      skipMatch rootDir slugLower repoBaseLower relLower repoAbsLower rest
    else
      let rawLower := goToLower pattern
      if rawLower = slugLower ∨ rawLower = repoBaseLower ∨ rawLower = relLower then
        (true, skipReasonFor raw)
      else
        let cleaned := goClean pattern
        let cleanLower := goToLower cleaned
        if cleanLower = repoAbsLower then (true, skipReasonFor raw)
        else
          let cleanSlashLower := goToLower (goToSlash cleaned)
          if cleanSlashLower = relLower then (true, skipReasonFor raw)
          else if goIsAbs cleaned = false then
            let abs := goJoin rootDir cleaned
            if goToLower (goClean abs) = repoAbsLower then (true, skipReasonFor raw)
            else skipMatch rootDir slugLower repoBaseLower relLower repoAbsLower rest
          else skipMatch rootDir slugLower repoBaseLower relLower repoAbsLower rest

/-- The `shouldSkipRepo` method: precompute the repository identity
forms (cleaned absolute path, base name, root-relative path, slug, all
case-folded) and try every pattern in order. -/
def Indexer.shouldSkipRepo (ix : Indexer) (rootDir repoDir slug : String) : Bool × String :=
  if ix.skip = [] then (false, "")
  else
    let repoAbs := goClean repoDir
    let repoAbsLower := goToLower repoAbs
    let repoBaseLower := goToLower (goBase repoAbs)
    let rel := match goRel rootDir repoAbs with
      | none => repoAbs
      | some r => r
    let rel := goToSlash (trimDotSlash rel)
    let relLower := goToLower rel
    let slugLower := goToLower slug
    skipMatch rootDir slugLower repoBaseLower relLower repoAbsLower ix.skip

/-! ## The agent invoker (`runCodex`)

The spawned process is an external collaborator: its observable
behaviour is whether `cmd.Run` returned nil, an `*exec.ExitError`
carrying an exit code, or another error, together with whether the
command context ended with `context.DeadlineExceeded`. -/

/-- Outcome of `cmd.Run()` for the codex process. -/
inductive ProcOutcome : Type where
  | success
  | exitErr (code : Int)
  | otherErr
deriving DecidableEq

/-- The two error shapes `runCodex` can return: the deadline-exceeded
wrapper `codex exec deadline exceeded: %w` or the plain
`codex exec: %w` wrapper. -/
inductive CodexErrKind : Type where
  | deadlineExceeded
  | execFailure
deriving DecidableEq

/-- Error text of the returned error (prefix of the wrapped message). -/
def codexErrText : CodexErrKind → String
  | .deadlineExceeded => "codex exec deadline exceeded"
  | .execFailure => "codex exec"

/-- Responses of the external world during one repository job: git
query results, workspace step results, diff output, and the codex
process outcome. -/
structure RepoEnv : Type where
  defaultBranchRes : Except String String
  currentBranchRes : Except String String
  headCommitRes : Except String String
  tmpDir : String
  mkdirOK : Bool
  fetchOK : Bool
  addOK : Bool
  diffRes : Except String String
  codexOutcome : ProcOutcome
  deadlineExceeded : Bool

/-- The `runCodex` method.  In dry-run mode no process starts and
`(false, nil, nil)` is returned.  Otherwise exit code `0` is success;
any failure captures the exit code (default `1` when the error carries
none) and is wrapped as a deadline-exceeded error when the command
context expired, as a plain exec error otherwise.  The workspace path,
slug, base commit and diff list only shape the child's environment, not
the returned outcome. -/
def runCodex (e : RepoEnv) (_repoDir _slug _baseCommit : String)
    (_diffFiles : List String) (dryRun : Bool) : Bool × Option Int × Option CodexErrKind :=
  if dryRun then (false, none, none)
  else
    match e.codexOutcome with
    | .success => (true, none, none)
    | .exitErr code =>
      if e.deadlineExceeded then (true, some code, some .deadlineExceeded)
      else (true, some code, some .execFailure)
    | .otherErr =>
      if e.deadlineExceeded then (true, some 1, some .deadlineExceeded)
      else (true, some 1, some .execFailure)

/-! ## Per-repository pipeline stages (`repos.go` part) -/

/-- The `RepoResult` record (fields as populated by `processRepo`). -/
structure RepoResult : Type where
  Path : String := ""
  CollectionSlug : String := ""
  DefaultBranch : String := ""
  CheckoutOK : Option Bool := none
  PullOK : Option Bool := none
  IndexedCommit : String := ""
  CachedCommit : String := ""
  DiffBaseCommit : String := ""
  DiffFileCount : Nat := 0
  CodexRan : Bool := false
  CodexExitCode : Option Int := none
  Error : String := ""
  SkipReason : String := ""
  DryRun : Bool := false
deriving DecidableEq

/-- The `reportDefaultBranch` method: a detection error or an empty
detection result both degrade to the empty branch. -/
def reportDefaultBranch (e : RepoEnv) : String :=
  match e.defaultBranchRes with
  | .error _ => ""
  | .ok b => b

/-- The `selectIndexBranch` method: prefer the default branch, fall
back to the current branch, degrade to empty on error. -/
def selectIndexBranch (e : RepoEnv) (defaultBranch : String) : String :=
  if defaultBranch ≠ "" then defaultBranch
  else
    match e.currentBranchRes with
    | .error _ => ""
    | .ok b => b

/-- The `detectIndexedCommit` method: the HEAD commit, empty on error. -/
def detectIndexedCommit (e : RepoEnv) : String :=
  match e.headCommitRes with
  | .error _ => ""
  | .ok c => c

/-- The `shortCommit` helper: the first seven bytes of a longer hash. -/
def shortCommit (commit : String) : String :=
  if 7 < commit.data.length then ⟨commit.data.take 7⟩ else commit

/-- The `evaluateSkip` method: with a cache, a branch and a commit in
hand, report an already-indexed skip when the cached revision equals
the current one, and surface the cached revision either way. -/
def evaluateSkip (cache : Option commitCache) (slug branch commit : String) : String × String :=
  match cache with
  | none => ("", "")
  | some c =>
    if branch = "" ∨ commit = "" then ("", "")
    else
      let lc := c.LastCommit slug branch
      if lc.2 = false then ("", "")
      else if lc.1 = commit then
        ("commit " ++ shortCommit commit ++ " on " ++ branch ++ " already indexed", lc.1)
      else ("", lc.1)

/-- Replacement of `\r\n` by `\n` (Go `strings.ReplaceAll`). -/
def replaceCRLF : List Char → List Char
  | [] => []
  | '\r' :: '\n' :: rest => '\n' :: replaceCRLF rest
  | c :: rest => c :: replaceCRLF rest

/-- The `diffFilesSince` function: an empty base commit is refused; on
git success the raw output is normalised, split into lines, trimmed,
and blank lines are dropped. -/
def diffFilesSince (e : RepoEnv) (baseCommit : String) : Except String (List String) :=
  if baseCommit = "" then .error "base commit is required to compute a diff"
  else
    match e.diffRes with
    | .error err => .error err
    | .ok out =>
      let lines := (splitChar '\n' (replaceCRLF out.data)).map (fun l => goTrimSpace ⟨l⟩)
      .ok (lines.filter (fun l => l ≠ ""))

/-- The temporary worktree root directory name. -/
def worktreeRootDirName : String := "codex-indexer-worktrees"

/-- The `prepareIndexWorkspace` method (from `worktree.go`): with no
branch the original tree is used; in dry-run mode only logging happens;
otherwise parent-directory creation, fetch and worktree-add failures
degrade to the original tree with the sync flags recording how far the
isolation got.  The last component tells whether a cleanup function was
returned. -/
def prepareIndexWorkspace (e : RepoEnv) (repoDir slug branch : String) (dryRun : Bool) :
    String × Option Bool × Option Bool × Bool :=
  if branch = "" then (repoDir, none, none, false)
  else
    let safeSlug := sanitizePathComponent slug
    let safeBranch := sanitizePathComponent branch
    let worktreeBase := goJoin e.tmpDir worktreeRootDirName
    let worktreePath := goJoin worktreeBase (safeSlug ++ "-" ++ safeBranch)
    if dryRun then (repoDir, none, none, false)
    else if e.mkdirOK = false then (repoDir, some false, some false, false)
    else if e.fetchOK = false then (repoDir, some false, some false, false)
    else if e.addOK = false then (repoDir, some false, some true, false)
    else (worktreePath, some true, some true, true)

/-- The `processRepo` method, threading the shared commit cache
explicitly: the returned pair is the job's `RepoResult` and the cache
contents after the job. -/
def processRepo (ix : Indexer) (e : RepoEnv) (repoDir rootDir : String) (dryRun : Bool) :
    RepoResult × Option commitCache :=
  let slug := computeCollectionSlug rootDir repoDir
  let result : RepoResult := { Path := repoDir, CollectionSlug := slug, DryRun := dryRun }
  let sk := ix.shouldSkipRepo rootDir repoDir slug
  if sk.1 then ({ result with SkipReason := sk.2 }, ix.cache)
  else
    let defaultBranch := reportDefaultBranch e
    let result := { result with DefaultBranch := defaultBranch }
    let prep := prepareIndexWorkspace e repoDir slug defaultBranch dryRun
    let result := { result with CheckoutOK := prep.2.1, PullOK := prep.2.2.1 }
    let indexDir := if prep.1 ≠ "" then prep.1 else repoDir
    let indexBranch := selectIndexBranch e defaultBranch
    let result :=
      if indexBranch ≠ "" ∧ result.DefaultBranch = "" then
        { result with DefaultBranch := indexBranch }
      else result
    let result := { result with IndexedCommit := detectIndexedCommit e }
    let ev := evaluateSkip ix.cache slug indexBranch result.IndexedCommit
    let result := { result with SkipReason := ev.1, CachedCommit := ev.2 }
    if result.SkipReason ≠ "" then (result, ix.cache)
    else
      let rd :=
        if result.CachedCommit ≠ "" then
          let result := { result with DiffBaseCommit := result.CachedCommit }
          match diffFilesSince e result.CachedCommit with
          | .error _ => (result, ([] : List String))
          | .ok files => ({ result with DiffFileCount := files.length }, files)
        else (result, ([] : List String))
      let result := rd.1
      let rc := runCodex e indexDir slug result.CachedCommit rd.2 dryRun
      let result := { result with CodexRan := rc.1 }
      let result :=
        match rc.2.1 with
        | some code => { result with CodexExitCode := some code }
        | none => result
      match rc.2.2 with
      | some err => ({ result with Error := codexErrText err }, ix.cache)
      | none =>
        if dryRun = false ∧ indexBranch ≠ "" ∧ result.IndexedCommit ≠ "" then
          match ix.cache with
          | some c => (result, some (c.Update slug indexBranch result.IndexedCommit))
          | none => (result, ix.cache)
        else (result, ix.cache)

/-! ## The job scheduler (worker pool) -/

/-- Modelled from the spec: the scheduler `runAll` itself is not among
the sources (only its test `TestRunParallelIndexing` is); §4.6 of the
spec describes a fixed pool of workers pulling `(index, path)` pairs
from a shared queue, each writing its job's result into a results array
pre-sized to the input count at the job's original index, no two
workers sharing an index.  The model makes the completion order
explicit: `order` lists the slot indices in the order the workers
finish them, and a full run completes every index exactly once, i.e.
`order` is a permutation of `0, …, n-1`. -/
def runAllModel {α β : Type} (paths : List α) (process : α → β) (order : List Nat) :
    List (Option β) :=
  order.foldl (fun slots i => slots.set i ((paths[i]?).map process))
    (List.replicate paths.length none)

/-! ## General helper lemmas -/

theorem string_eq_empty_iff (s : String) : s = "" ↔ s.data = [] := by
  constructor
  · intro h
    subst h
    rfl
  · intro h
    cases s
    simp_all

theorem string_mk_ne_empty (l : List Char) (h : l ≠ []) : (⟨l⟩ : String) ≠ "" := by
  intro hc
  exact h ((string_eq_empty_iff ⟨l⟩).mp hc)

theorem string_append_left_ne_empty (a b : String) (h : a ≠ "") : a ++ b ≠ "" := by
  intro hc
  have hd : (a ++ b).data = a.data ++ b.data := rfl
  have : a.data ++ b.data = [] := by
    rw [← hd]
    exact (string_eq_empty_iff _).mp hc
  exact h ((string_eq_empty_iff a).mpr (List.append_eq_nil.mp this).1)

theorem commitCache.Update_path (c : commitCache) (s b r : String) :
    (c.Update s b r).path = c.path := by
  unfold commitCache.Update
  split <;> rfl

theorem commitCache.Update_data (c : commitCache) (s b r : String)
    (hs : s ≠ "") (hb : b ≠ "") (hr : r ≠ "") :
    (c.Update s b r).data =
      alistInsert c.data s (alistInsert ((List.lookup s c.data).getD []) b r) := by
  unfold commitCache.Update
  rw [if_neg]
  simp [hs, hb, hr]

theorem commitCache.Save_lookup (c : commitCache) (fs : FS) (hp : c.path ≠ "") :
    List.lookup c.path (c.Save fs) = some (FileContent.validDoc c.data) := by
  simp [commitCache.Save, hp, lookup_alistInsert_self]

/-- C3: for non-empty slug `s`, branch `b` and revision `r`,
`Update(s, b, r)` followed by `Save()` and a `loadCommitCache` of the
same path yields a cache whose `LastCommit(s, b)` is `(r, true)`; and
`Update` with any empty argument leaves the cache contents unchanged. -/
theorem cache_roundtrip (c : commitCache) (fs : FS) (s b r : String)
    (hs : s ≠ "") (hb : b ≠ "") (hr : r ≠ "") (hp : c.path ≠ "") :
    (∃ c2 : commitCache,
        loadCommitCache ((c.Update s b r).Save fs) c.path = .ok c2 ∧
        c2.LastCommit s b = (r, true)) ∧
    (∀ b' r' : String, c.Update "" b' r' = c) ∧
    (∀ s' r' : String, c.Update s' "" r' = c) ∧
    (∀ s' b' : String, c.Update s' b' "" = c) := by
  refine ⟨?_, ?_, ?_, ?_⟩
  · have hpath : (c.Update s b r).path = c.path := commitCache.Update_path c s b r
    have hload : List.lookup c.path ((c.Update s b r).Save fs) =
        some (FileContent.validDoc (c.Update s b r).data) := by
      rw [← hpath]
      exact commitCache.Save_lookup _ fs (hpath ▸ hp)
    refine ⟨{ path := c.path, data := (c.Update s b r).data }, ?_, ?_⟩
    · unfold loadCommitCache
      rw [if_neg hp, hload]
    · unfold commitCache.LastCommit
      rw [if_neg (by simp [hs, hb])]
      rw [commitCache.Update_data c s b r hs hb hr]
      simp [lookup_alistInsert_self]
  · intro b' r'
    simp [commitCache.Update]
  · intro s' r'
    simp [commitCache.Update]
  · intro s' b'
    simp [commitCache.Update]

/-- Witness for C3 at a concrete cache, path and entry. -/
theorem cache_roundtrip_witness :
    (∃ c2 : commitCache,
        loadCommitCache
          ((commitCache.Update ⟨[], "/tmp/cache.json"⟩ "repo-one" "main" "abc123").Save [])
          "/tmp/cache.json" = .ok c2 ∧
        c2.LastCommit "repo-one" "main" = ("abc123", true)) ∧
    (∀ b' r' : String, commitCache.Update ⟨[], "/tmp/cache.json"⟩ "" b' r' = ⟨[], "/tmp/cache.json"⟩) ∧
    (∀ s' r' : String, commitCache.Update ⟨[], "/tmp/cache.json"⟩ s' "" r' = ⟨[], "/tmp/cache.json"⟩) ∧
    (∀ s' b' : String, commitCache.Update ⟨[], "/tmp/cache.json"⟩ s' b' "" = ⟨[], "/tmp/cache.json"⟩) :=
  cache_roundtrip ⟨[], "/tmp/cache.json"⟩ [] "repo-one" "main" "abc123"
    (by decide) (by decide) (by decide) (by decide)

/-- C4: loading a missing cache file yields an empty cache and no
error, while loading an existing file that is not a valid serialized
cache document is a decode error. -/
theorem loadCommitCache_missing_or_malformed (fs : FS) (path : String) (hp : path ≠ "") :
    (List.lookup path fs = none →
      loadCommitCache fs path = .ok { data := [], path := path }) ∧
    (List.lookup path fs = some .malformed →
      loadCommitCache fs path = .error "decode commit cache") := by
  constructor
  · intro h
    unfold loadCommitCache
    rw [if_neg hp, h]
  · intro h
    unfold loadCommitCache
    rw [if_neg hp, h]

/-- Witness for C4: a missing file on an empty disk, and a malformed
file at the same path. -/
theorem loadCommitCache_missing_or_malformed_witness :
    loadCommitCache [] "/tmp/cache.json" = .ok { data := [], path := "/tmp/cache.json" } ∧
    loadCommitCache [("/tmp/cache.json", FileContent.malformed)] "/tmp/cache.json" =
      .error "decode commit cache" :=
  ⟨(loadCommitCache_missing_or_malformed [] "/tmp/cache.json" (by decide)).1 (by decide),
   (loadCommitCache_missing_or_malformed [("/tmp/cache.json", FileContent.malformed)]
      "/tmp/cache.json" (by decide)).2 (by decide)⟩

/-- C10: loading an existing but zero-length cache file yields an empty
cache and no error (the `len(bytes) == 0` early return runs before the
decoder). -/
theorem loadCommitCache_empty_file (fs : FS) (path : String) (hp : path ≠ "")
    (h : List.lookup path fs = some .empty) :
    loadCommitCache fs path = .ok { data := [], path := path } := by
  unfold loadCommitCache
  rw [if_neg hp, h]

/-- Witness for C10 at a concrete zero-length file. -/
theorem loadCommitCache_empty_file_witness :
    loadCommitCache [("/tmp/cache.json", FileContent.empty)] "/tmp/cache.json" =
      .ok { data := [], path := "/tmp/cache.json" } :=
  loadCommitCache_empty_file [("/tmp/cache.json", FileContent.empty)] "/tmp/cache.json"
    (by decide) (by decide)

/-- C6: for every input, `sanitizePathComponent` returns a non-empty
string consisting only of letters, digits, `-`, `_` and `.`. -/
theorem sanitizePathComponent_safe (value : String) :
    sanitizePathComponent value ≠ "" ∧
    ∀ c ∈ (sanitizePathComponent value).data, allowedRune c = true := by
  unfold sanitizePathComponent
  by_cases h1 : goTrimSpace value = ""
  · rw [if_pos h1]
    exact ⟨by decide, by decide⟩
  · rw [if_neg h1]
    by_cases h2 : ((goTrimSpace value).data.map
        (fun r => if allowedRune r then r else '_')).all (fun r => r = '_')
    · simp only [h2, if_pos]
      exact ⟨by decide, by decide⟩
    · simp only [h2, Bool.false_eq_true, if_neg]
      constructor
      · apply string_mk_ne_empty
        intro hc
        have : (goTrimSpace value).data = [] := List.map_eq_nil_iff.mp hc
        exact h1 ((string_eq_empty_iff _).mpr this)
      · intro c hc
        obtain ⟨a, _, ha⟩ := List.mem_map.mp hc
        by_cases hall : allowedRune a = true
        · rw [if_pos hall] at ha
          exact ha ▸ hall
        · rw [if_neg hall] at ha
          subst ha
          decide

/-- C5: a fresh keep-alive feeder's first read into a non-empty buffer
yields exactly one newline without entering the timer wait; once closed
a feeder answers every non-empty read with end-of-stream and stays
closed; and `Close` is idempotent and always returns a nil error. -/
theorem newlineFeeder_behavior (i n : Nat) (w : Bool) (nf : newlineFeeder) (hn : n ≠ 0) :
    ((newNewlineFeeder i).Read n w).2 = (ReadRes.newline, false) ∧
    (nf.closed = true →
      (nf.Read n w).2.1 = ReadRes.eof ∧ ((nf.Read n w).1).closed = true) ∧
    nf.Close.1.Close = nf.Close ∧
    nf.Close.2 = none := by
  refine ⟨?_, ?_, rfl, rfl⟩
  · simp [newNewlineFeeder, newlineFeeder.Read, hn]
  · intro hc
    unfold newlineFeeder.Read
    rw [if_neg hn]
    by_cases hf : nf.first
    · simp [hf, hc]
    · simp [hf, hc]

/-- Witness for C5 on a fresh feeder and on an already-closed feeder. -/
theorem newlineFeeder_behavior_witness :
    (((newNewlineFeeder 30).Read 1 false).2 = (ReadRes.newline, false)) ∧
    ((newlineFeeder.mk 30 true true).closed = true →
      ((newlineFeeder.mk 30 true true).Read 1 false).2.1 = ReadRes.eof ∧
      (((newlineFeeder.mk 30 true true).Read 1 false).1).closed = true) ∧
    (newlineFeeder.mk 30 true true).Close.1.Close = (newlineFeeder.mk 30 true true).Close ∧
    (newlineFeeder.mk 30 true true).Close.2 = none :=
  newlineFeeder_behavior 30 1 false (newlineFeeder.mk 30 true true) (by decide)

/-- C8: when the codex process fails (non-zero exit, kill by timeout, or
a non-exit error), `runCodex` reports `ran = true` with a non-nil exit
code (`1` when the error carries none), and the returned error is the
deadline-exceeded wrapper exactly when the command context expired,
the plain exec wrapper otherwise; the two wrappers are distinct. -/
theorem runCodex_failure (e : RepoEnv) (repoDir slug base : String) (files : List String)
    (h : e.codexOutcome ≠ ProcOutcome.success) :
    (runCodex e repoDir slug base files false).1 = true ∧
    (runCodex e repoDir slug base files false).2.1 ≠ none ∧
    (e.codexOutcome = ProcOutcome.otherErr →
      (runCodex e repoDir slug base files false).2.1 = some 1) ∧
    ((runCodex e repoDir slug base files false).2.2 = some CodexErrKind.deadlineExceeded ↔
      e.deadlineExceeded = true) ∧
    (e.deadlineExceeded = false →
      (runCodex e repoDir slug base files false).2.2 = some CodexErrKind.execFailure) ∧
    codexErrText CodexErrKind.deadlineExceeded ≠ codexErrText CodexErrKind.execFailure := by
  refine ⟨?_, ?_, ?_, ?_, ?_, by decide⟩ <;>
    cases ho : e.codexOutcome <;>
      first
      | exact absurd ho h
      | cases hd : e.deadlineExceeded <;> simp [runCodex, ho, hd]

/-- Witness for C8 at a concrete failing environment. -/
theorem runCodex_failure_witness :
    (runCodex ⟨.ok "main", .ok "main", .ok "c1", "/tmp", true, true, true, .ok "", ProcOutcome.exitErr 2, false⟩
        "/r" "s" "" [] false).1 = true ∧
    (runCodex ⟨.ok "main", .ok "main", .ok "c1", "/tmp", true, true, true, .ok "", ProcOutcome.exitErr 2, false⟩
        "/r" "s" "" [] false).2.1 ≠ none ∧
    ((ProcOutcome.exitErr 2 : ProcOutcome) = ProcOutcome.otherErr →
      (runCodex ⟨.ok "main", .ok "main", .ok "c1", "/tmp", true, true, true, .ok "", ProcOutcome.exitErr 2, false⟩
        "/r" "s" "" [] false).2.1 = some 1) ∧
    ((runCodex ⟨.ok "main", .ok "main", .ok "c1", "/tmp", true, true, true, .ok "", ProcOutcome.exitErr 2, false⟩
        "/r" "s" "" [] false).2.2 = some CodexErrKind.deadlineExceeded ↔ false = true) ∧
    (false = false →
      (runCodex ⟨.ok "main", .ok "main", .ok "c1", "/tmp", true, true, true, .ok "", ProcOutcome.exitErr 2, false⟩
        "/r" "s" "" [] false).2.2 = some CodexErrKind.execFailure) ∧
    codexErrText CodexErrKind.deadlineExceeded ≠ codexErrText CodexErrKind.execFailure :=
  runCodex_failure _ "/r" "s" "" [] (by decide)

theorem runAll_slot_lemma {α β : Type} (paths : List α) (process : α → β) (i : Nat) :
    ∀ (order : List Nat) (slots : List (Option β)), slots.length = paths.length →
      (order.foldl (fun sl j => sl.set j ((paths[j]?).map process)) slots)[i]? =
        if i ∈ order ∧ i < paths.length then some ((paths[i]?).map process)
        else slots[i]? := by
  intro order
  induction order with
  | nil =>
    intro slots _
    simp
  | cons j rest ih =>
    intro slots hlen
    have hlen' : (slots.set j ((paths[j]?).map process)).length = paths.length := by
      rw [List.length_set]
      exact hlen
    rw [List.foldl_cons, ih _ hlen']
    by_cases hr : i ∈ rest ∧ i < paths.length
    · rw [if_pos hr, if_pos ⟨List.mem_cons_of_mem j hr.1, hr.2⟩]
    · rw [if_neg hr, List.getElem?_set]
      by_cases hj : j = i
      · subst hj
        by_cases hlt : j < paths.length
        · rw [if_pos rfl, if_pos (hlen ▸ hlt), if_pos ⟨List.mem_cons_self j rest, hlt⟩]
        · rw [if_pos rfl, if_neg (by omega : ¬ j < slots.length),
            if_neg (fun hx => hlt hx.2)]
          symm
          rw [List.getElem?_eq_none_iff]
          omega
      · rw [if_neg hj]
        have hnot : ¬(i ∈ j :: rest ∧ i < paths.length) := by
          intro hx
          rcases List.mem_cons.mp hx.1 with he | hm
          · exact hj he.symm
          · exact hr ⟨hm, hx.2⟩
        rw [if_neg hnot]

/-- C9: the scheduler delivers exactly one result per input path, at
the slot matching the path's position in the input, for every order in
which the workers can complete the jobs (any permutation of the
indices). -/
theorem runAllModel_ordered {α β : Type} (paths : List α) (process : α → β)
    (order : List Nat) (hperm : order.Perm (List.range paths.length)) :
    runAllModel paths process order = paths.map (fun p => some (process p)) := by
  apply List.ext_getElem?_iff.mpr
  intro i
  unfold runAllModel
  rw [runAll_slot_lemma paths process i order (List.replicate paths.length none)
    (List.length_replicate _ _)]
  by_cases hi : i < paths.length
  · have hmem : i ∈ order := hperm.mem_iff.mpr (List.mem_range.mpr hi)
    rw [if_pos ⟨hmem, hi⟩, List.getElem?_map]
    rw [List.getElem?_eq_getElem hi]
    rfl
  · rw [if_neg (fun hx => hi hx.2), List.getElem?_replicate, if_neg hi,
      List.getElem?_map]
    rw [List.getElem?_eq_none_iff.mpr (by omega)]
    rfl

/-- Witness for C9: three paths completed out of order still fill the
slots in input order. -/
theorem runAllModel_ordered_witness :
    runAllModel ["/r/a", "/r/b", "/r/c"] (fun p => p ++ "!") [2, 0, 1] =
      ["/r/a", "/r/b", "/r/c"].map (fun p => some (p ++ "!")) :=
  runAllModel_ordered ["/r/a", "/r/b", "/r/c"] (fun p => p ++ "!") [2, 0, 1] (by decide)

theorem skipReasonFor_ne_empty (raw : String) : skipReasonFor raw ≠ "" :=
  string_append_left_ne_empty _ _
    (string_append_left_ne_empty _ _ (by decide))

theorem skipMatch_true_reason (rootDir sL bL rL aL : String) :
    ∀ l : List String, (skipMatch rootDir sL bL rL aL l).1 = true →
      (skipMatch rootDir sL bL rL aL l).2 ≠ "" := by
  intro l
  induction l with
  | nil => simp [skipMatch]
  | cons raw rest ih =>
    unfold skipMatch
    by_cases h1 : goTrimSpace raw = ""
    · simp only [if_pos h1]
      exact ih
    · simp only [if_neg h1]
      by_cases h2 : goToLower (goTrimSpace raw) = sL ∨ goToLower (goTrimSpace raw) = bL ∨
          goToLower (goTrimSpace raw) = rL
      · simp only [if_pos h2]
        intro _
        exact skipReasonFor_ne_empty raw
      · simp only [if_neg h2]
        by_cases h3 : goToLower (goClean (goTrimSpace raw)) = aL
        · simp only [if_pos h3]
          intro _
          exact skipReasonFor_ne_empty raw
        · simp only [if_neg h3]
          by_cases h4 : goToLower (goToSlash (goClean (goTrimSpace raw))) = rL
          · simp only [if_pos h4]
            intro _
            exact skipReasonFor_ne_empty raw
          · simp only [if_neg h4]
            by_cases h5 : goIsAbs (goClean (goTrimSpace raw)) = false
            · simp only [if_pos h5]
              by_cases h6 : goToLower (goClean (goJoin rootDir (goClean (goTrimSpace raw)))) = aL
              · simp only [if_pos h6]
                intro _
                exact skipReasonFor_ne_empty raw
              · simp only [if_neg h6]
                exact ih
            · simp only [if_neg h5]
              exact ih

theorem shouldSkipRepo_true_reason (ix : Indexer) (rootDir repoDir slug : String) :
    (ix.shouldSkipRepo rootDir repoDir slug).1 = true →
    (ix.shouldSkipRepo rootDir repoDir slug).2 ≠ "" := by
  unfold Indexer.shouldSkipRepo
  by_cases h0 : ix.skip = []
  · simp [h0]
  · simp only [if_neg h0]
    exact skipMatch_true_reason _ _ _ _ _ ix.skip

theorem alreadyIndexedMsg_ne_empty (commit branch : String) :
    ("commit " ++ shortCommit commit ++ " on " ++ branch ++ " already indexed") ≠ "" :=
  string_append_left_ne_empty _ _
    (string_append_left_ne_empty _ _
      (string_append_left_ne_empty _ _
        (string_append_left_ne_empty _ _ (by decide))))

theorem evaluateSkip_hit (c : commitCache) (slug branch commit : String)
    (hb : branch ≠ "") (hcm : commit ≠ "")
    (hl : c.LastCommit slug branch = (commit, true)) :
    evaluateSkip (some c) slug branch commit =
      ("commit " ++ shortCommit commit ++ " on " ++ branch ++ " already indexed", commit) := by
  unfold evaluateSkip
  dsimp only []
  rw [if_neg (by simp [hb, hcm])]
  simp only [hl]
  simp

/-- C2: when the cache lookup for the job's slug and detected branch
returns exactly the freshly detected HEAD revision, the job reports a
non-empty skip reason, the agent is never invoked (`CodexRan` stays
`false`), and the cache is left unchanged. -/
theorem processRepo_incremental_skip (ix : Indexer) (e : RepoEnv) (repoDir rootDir : String)
    (dryRun : Bool) (c : commitCache)
    (hc : ix.cache = some c)
    (hb : selectIndexBranch e (reportDefaultBranch e) ≠ "")
    (hcm : detectIndexedCommit e ≠ "")
    (hl : c.LastCommit (computeCollectionSlug rootDir repoDir)
        (selectIndexBranch e (reportDefaultBranch e)) = (detectIndexedCommit e, true)) :
    (processRepo ix e repoDir rootDir dryRun).1.SkipReason ≠ "" ∧
    (processRepo ix e repoDir rootDir dryRun).1.CodexRan = false ∧
    (processRepo ix e repoDir rootDir dryRun).2 = ix.cache := by
  have hev : evaluateSkip ix.cache (computeCollectionSlug rootDir repoDir)
      (selectIndexBranch e (reportDefaultBranch e)) (detectIndexedCommit e) =
      ("commit " ++ shortCommit (detectIndexedCommit e) ++ " on " ++
        selectIndexBranch e (reportDefaultBranch e) ++ " already indexed",
        detectIndexedCommit e) := by
    rw [hc]
    exact evaluateSkip_hit c _ _ _ hb hcm hl
  unfold processRepo
  by_cases hsk : (ix.shouldSkipRepo rootDir repoDir (computeCollectionSlug rootDir repoDir)).1 = true
  · rw [if_pos hsk]
    exact ⟨shouldSkipRepo_true_reason ix rootDir repoDir _ hsk, rfl, rfl⟩
  · rw [if_neg hsk]
    dsimp only []
    rw [hev]
    rw [if_pos (alreadyIndexedMsg_ne_empty _ _)]
    refine ⟨?_, ?_, ?_⟩
    · split <;> exact alreadyIndexedMsg_ne_empty _ _
    · split <;> rfl
    · split <;> rfl

/-- Witness for C2: a repository whose cached revision for its detected
branch equals the detected HEAD revision is skipped. -/
theorem processRepo_incremental_skip_witness :
    (processRepo ⟨[], some ⟨[("api", [("main", "abc")])], "/cache"⟩⟩
        ⟨.ok "main", .ok "main", .ok "abc", "/tmp", true, true, true, .ok "",
          ProcOutcome.success, false⟩
        "/r/api" "/r" false).1.SkipReason ≠ "" ∧
    (processRepo ⟨[], some ⟨[("api", [("main", "abc")])], "/cache"⟩⟩
        ⟨.ok "main", .ok "main", .ok "abc", "/tmp", true, true, true, .ok "",
          ProcOutcome.success, false⟩
        "/r/api" "/r" false).1.CodexRan = false ∧
    (processRepo ⟨[], some ⟨[("api", [("main", "abc")])], "/cache"⟩⟩
        ⟨.ok "main", .ok "main", .ok "abc", "/tmp", true, true, true, .ok "",
          ProcOutcome.success, false⟩
        "/r/api" "/r" false).2 =
      (Indexer.mk [] (some ⟨[("api", [("main", "abc")])], "/cache"⟩)).cache :=
  processRepo_incremental_skip
    ⟨[], some ⟨[("api", [("main", "abc")])], "/cache"⟩⟩
    ⟨.ok "main", .ok "main", .ok "abc", "/tmp", true, true, true, .ok "",
      ProcOutcome.success, false⟩
    "/r/api" "/r" false ⟨[("api", [("main", "abc")])], "/cache"⟩
    rfl (by decide) (by decide) (by decide)

theorem codexErrText_ne_empty (k : CodexErrKind) : codexErrText k ≠ "" := by
  cases k <;> decide

theorem selectIndexBranch_of_default_ne (e : RepoEnv) (db : String) (h : db ≠ "") :
    selectIndexBranch e db = db := by
  simp [selectIndexBranch, h]

/-- C1: the commit cache is written (one `Update` of the job's slug,
detected branch and detected HEAD revision) only on a non-dry-run job
whose agent invocation returned no error and whose detected index
branch and HEAD commit are both non-empty; on skipped jobs, dry runs
and agent failures the cache contents are unchanged. -/
theorem processRepo_cache_discipline (ix : Indexer) (e : RepoEnv) (repoDir rootDir : String)
    (dryRun : Bool) :
    ((processRepo ix e repoDir rootDir dryRun).2 ≠ ix.cache →
      dryRun = false ∧
      (processRepo ix e repoDir rootDir dryRun).1.Error = "" ∧
      (processRepo ix e repoDir rootDir dryRun).1.SkipReason = "" ∧
      (processRepo ix e repoDir rootDir dryRun).1.DefaultBranch ≠ "" ∧
      (processRepo ix e repoDir rootDir dryRun).1.IndexedCommit ≠ "" ∧
      ∃ c : commitCache, ix.cache = some c ∧
        (processRepo ix e repoDir rootDir dryRun).2 =
          some (c.Update (processRepo ix e repoDir rootDir dryRun).1.CollectionSlug
            (processRepo ix e repoDir rootDir dryRun).1.DefaultBranch
            (processRepo ix e repoDir rootDir dryRun).1.IndexedCommit)) ∧
    (dryRun = true → (processRepo ix e repoDir rootDir dryRun).2 = ix.cache) ∧
    ((processRepo ix e repoDir rootDir dryRun).1.SkipReason ≠ "" →
      (processRepo ix e repoDir rootDir dryRun).2 = ix.cache) ∧
    ((processRepo ix e repoDir rootDir dryRun).1.Error ≠ "" →
      (processRepo ix e repoDir rootDir dryRun).2 = ix.cache) := by
  obtain ⟨skips, cache⟩ := ix
  rcases hpr : processRepo ⟨skips, cache⟩ e repoDir rootDir dryRun with ⟨res, c2⟩
  unfold processRepo at hpr
  by_cases hsk : ((Indexer.mk skips cache).shouldSkipRepo rootDir repoDir
      (computeCollectionSlug rootDir repoDir)).1 = true
  · rw [if_pos hsk] at hpr
    simp only [Prod.mk.injEq] at hpr
    obtain ⟨hres, hc2⟩ := hpr
    subst hres
    subst hc2
    exact ⟨fun hne => absurd rfl hne, fun _ => rfl, fun _ => rfl, fun _ => rfl⟩
  · rw [if_neg hsk] at hpr
    by_cases hskip : (evaluateSkip (Indexer.mk skips cache).cache
        (computeCollectionSlug rootDir repoDir)
        (selectIndexBranch e (reportDefaultBranch e)) (detectIndexedCommit e)).1 ≠ ""
    · rw [if_pos hskip] at hpr
      simp only [Prod.mk.injEq] at hpr
      obtain ⟨hres, hc2⟩ := hpr
      subst hres
      subst hc2
      exact ⟨fun hne => absurd rfl hne, fun _ => rfl, fun _ => rfl, fun _ => rfl⟩
    · rw [if_neg hskip] at hpr
      cases dryRun with
      | true =>
        simp only [runCodex, if_true] at hpr
        rw [if_neg (fun hx => absurd hx.1 (by decide))] at hpr
        simp only [Prod.mk.injEq] at hpr
        obtain ⟨hres, hc2⟩ := hpr
        subst hres
        subst hc2
        exact ⟨fun hne => absurd rfl hne, fun _ => rfl, fun _ => rfl, fun _ => rfl⟩
      | false =>
        rcases hco : e.codexOutcome with _ | code | _
        · -- agent success
          have hrc : ∀ (a s bc : String) (df : List String),
              runCodex e a s bc df false = (true, none, none) := by
            intro a s bc df
            simp [runCodex, hco]
          simp only [hrc] at hpr
          by_cases hcc : (evaluateSkip cache (computeCollectionSlug rootDir repoDir)
              (selectIndexBranch e (reportDefaultBranch e)) (detectIndexedCommit e)).2 ≠ ""
          · rw [if_pos hcc] at hpr
            rcases hdres : e.diffRes with derr | dout
            · simp only [diffFilesSince, if_neg hcc, hdres] at hpr
              by_cases hb2 : selectIndexBranch e (reportDefaultBranch e) ≠ ""
              · by_cases hc2p : detectIndexedCommit e ≠ ""
                · rw [if_pos ⟨by trivial, hb2, hc2p⟩] at hpr
                  cases cache with
                  | none =>
                    simp only [Prod.mk.injEq] at hpr
                    obtain ⟨hres, hc2⟩ := hpr
                    subst hres
                    subst hc2
                    exact ⟨fun hne => absurd rfl hne, fun _ => rfl, fun _ => rfl, fun _ => rfl⟩
                  | some c =>
                    simp only [Prod.mk.injEq] at hpr
                    obtain ⟨hres, hc2⟩ := hpr
                    subst hres
                    subst hc2
                    by_cases hdb : selectIndexBranch e (reportDefaultBranch e) ≠ "" ∧
                        reportDefaultBranch e = ""
                    · rw [if_pos hdb]
                      exact ⟨fun _ => ⟨rfl, rfl, not_ne_iff.mp hskip, hb2, hc2p, c, rfl, rfl⟩,
                        fun hd => absurd hd (by decide),
                        fun h => absurd (not_ne_iff.mp hskip) h,
                        fun h => absurd rfl h⟩
                    · rw [if_neg hdb]
                      have hdbne : reportDefaultBranch e ≠ "" := fun h0 => hdb ⟨hb2, h0⟩
                      refine ⟨fun _ => ⟨rfl, rfl, not_ne_iff.mp hskip, hdbne, hc2p, c, rfl, ?_⟩,
                        fun hd => absurd hd (by decide),
                        fun h => absurd (not_ne_iff.mp hskip) h,
                        fun h => absurd rfl h⟩
                      rw [selectIndexBranch_of_default_ne e _ hdbne]
                · rw [if_neg (fun hx => hc2p hx.2.2)] at hpr
                  simp only [Prod.mk.injEq] at hpr
                  obtain ⟨hres, hc2⟩ := hpr
                  subst hres
                  subst hc2
                  exact ⟨fun hne => absurd rfl hne, fun _ => rfl, fun _ => rfl, fun _ => rfl⟩
              · rw [if_neg (fun hx => hb2 hx.2.1)] at hpr
                simp only [Prod.mk.injEq] at hpr
                obtain ⟨hres, hc2⟩ := hpr
                subst hres
                subst hc2
                exact ⟨fun hne => absurd rfl hne, fun _ => rfl, fun _ => rfl, fun _ => rfl⟩
            · simp only [diffFilesSince, if_neg hcc, hdres] at hpr
              by_cases hb2 : selectIndexBranch e (reportDefaultBranch e) ≠ ""
              · by_cases hc2p : detectIndexedCommit e ≠ ""
                · rw [if_pos ⟨by trivial, hb2, hc2p⟩] at hpr
                  cases cache with
                  | none =>
                    simp only [Prod.mk.injEq] at hpr
                    obtain ⟨hres, hc2⟩ := hpr
                    subst hres
                    subst hc2
                    exact ⟨fun hne => absurd rfl hne, fun _ => rfl, fun _ => rfl, fun _ => rfl⟩
                  | some c =>
                    simp only [Prod.mk.injEq] at hpr
                    obtain ⟨hres, hc2⟩ := hpr
                    subst hres
                    subst hc2
                    by_cases hdb : selectIndexBranch e (reportDefaultBranch e) ≠ "" ∧
                        reportDefaultBranch e = ""
                    · rw [if_pos hdb]
                      exact ⟨fun _ => ⟨rfl, rfl, not_ne_iff.mp hskip, hb2, hc2p, c, rfl, rfl⟩,
                        fun hd => absurd hd (by decide),
                        fun h => absurd (not_ne_iff.mp hskip) h,
                        fun h => absurd rfl h⟩
                    · rw [if_neg hdb]
                      have hdbne : reportDefaultBranch e ≠ "" := fun h0 => hdb ⟨hb2, h0⟩
                      refine ⟨fun _ => ⟨rfl, rfl, not_ne_iff.mp hskip, hdbne, hc2p, c, rfl, ?_⟩,
                        fun hd => absurd hd (by decide),
                        fun h => absurd (not_ne_iff.mp hskip) h,
                        fun h => absurd rfl h⟩
                      rw [selectIndexBranch_of_default_ne e _ hdbne]
                · rw [if_neg (fun hx => hc2p hx.2.2)] at hpr
                  simp only [Prod.mk.injEq] at hpr
                  obtain ⟨hres, hc2⟩ := hpr
                  subst hres
                  subst hc2
                  exact ⟨fun hne => absurd rfl hne, fun _ => rfl, fun _ => rfl, fun _ => rfl⟩
              · rw [if_neg (fun hx => hb2 hx.2.1)] at hpr
                simp only [Prod.mk.injEq] at hpr
                obtain ⟨hres, hc2⟩ := hpr
                subst hres
                subst hc2
                exact ⟨fun hne => absurd rfl hne, fun _ => rfl, fun _ => rfl, fun _ => rfl⟩
          · rw [if_neg hcc] at hpr
            by_cases hb2 : selectIndexBranch e (reportDefaultBranch e) ≠ ""
            · by_cases hc2p : detectIndexedCommit e ≠ ""
              · rw [if_pos ⟨by trivial, hb2, hc2p⟩] at hpr
                cases cache with
                | none =>
                  simp only [Prod.mk.injEq] at hpr
                  obtain ⟨hres, hc2⟩ := hpr
                  subst hres
                  subst hc2
                  exact ⟨fun hne => absurd rfl hne, fun _ => rfl, fun _ => rfl, fun _ => rfl⟩
                | some c =>
                  simp only [Prod.mk.injEq] at hpr
                  obtain ⟨hres, hc2⟩ := hpr
                  subst hres
                  subst hc2
                  by_cases hdb : selectIndexBranch e (reportDefaultBranch e) ≠ "" ∧
                      reportDefaultBranch e = ""
                  · rw [if_pos hdb]
                    exact ⟨fun _ => ⟨rfl, rfl, not_ne_iff.mp hskip, hb2, hc2p, c, rfl, rfl⟩,
                      fun hd => absurd hd (by decide),
                      fun h => absurd (not_ne_iff.mp hskip) h,
                      fun h => absurd rfl h⟩
                  · rw [if_neg hdb]
                    have hdbne : reportDefaultBranch e ≠ "" := fun h0 => hdb ⟨hb2, h0⟩
                    refine ⟨fun _ => ⟨rfl, rfl, not_ne_iff.mp hskip, hdbne, hc2p, c, rfl, ?_⟩,
                      fun hd => absurd hd (by decide),
                      fun h => absurd (not_ne_iff.mp hskip) h,
                      fun h => absurd rfl h⟩
                    rw [selectIndexBranch_of_default_ne e _ hdbne]
              · rw [if_neg (fun hx => hc2p hx.2.2)] at hpr
                simp only [Prod.mk.injEq] at hpr
                obtain ⟨hres, hc2⟩ := hpr
                subst hres
                subst hc2
                exact ⟨fun hne => absurd rfl hne, fun _ => rfl, fun _ => rfl, fun _ => rfl⟩
            · rw [if_neg (fun hx => hb2 hx.2.1)] at hpr
              simp only [Prod.mk.injEq] at hpr
              obtain ⟨hres, hc2⟩ := hpr
              subst hres
              subst hc2
              exact ⟨fun hne => absurd rfl hne, fun _ => rfl, fun _ => rfl, fun _ => rfl⟩
        · -- agent exit error
          cases hde : e.deadlineExceeded
          · have hrc : ∀ (a s bc : String) (df : List String),
                runCodex e a s bc df false =
                  (true, some code, some CodexErrKind.execFailure) := by
              intro a s bc df
              simp [runCodex, hco, hde]
            simp only [hrc] at hpr
            simp only [Prod.mk.injEq] at hpr
            obtain ⟨hres, hc2⟩ := hpr
            subst hres
            subst hc2
            exact ⟨fun hne => absurd rfl hne, fun _ => rfl, fun _ => rfl, fun _ => rfl⟩
          · have hrc : ∀ (a s bc : String) (df : List String),
                runCodex e a s bc df false =
                  (true, some code, some CodexErrKind.deadlineExceeded) := by
              intro a s bc df
              simp [runCodex, hco, hde]
            simp only [hrc] at hpr
            simp only [Prod.mk.injEq] at hpr
            obtain ⟨hres, hc2⟩ := hpr
            subst hres
            subst hc2
            exact ⟨fun hne => absurd rfl hne, fun _ => rfl, fun _ => rfl, fun _ => rfl⟩
        · -- agent failure without exit code
          cases hde : e.deadlineExceeded
          · have hrc : ∀ (a s bc : String) (df : List String),
                runCodex e a s bc df false =
                  (true, some 1, some CodexErrKind.execFailure) := by
              intro a s bc df
              simp [runCodex, hco, hde]
            simp only [hrc] at hpr
            simp only [Prod.mk.injEq] at hpr
            obtain ⟨hres, hc2⟩ := hpr
            subst hres
            subst hc2
            exact ⟨fun hne => absurd rfl hne, fun _ => rfl, fun _ => rfl, fun _ => rfl⟩
          · have hrc : ∀ (a s bc : String) (df : List String),
                runCodex e a s bc df false =
                  (true, some 1, some CodexErrKind.deadlineExceeded) := by
              intro a s bc df
              simp [runCodex, hco, hde]
            simp only [hrc] at hpr
            simp only [Prod.mk.injEq] at hpr
            obtain ⟨hres, hc2⟩ := hpr
            subst hres
            subst hc2
            exact ⟨fun hne => absurd rfl hne, fun _ => rfl, fun _ => rfl, fun _ => rfl⟩

/-- Witness for C1: a dry-run job leaves the cache unchanged. -/
theorem processRepo_cache_discipline_witness :
    (processRepo ⟨[], some ⟨[], "/cache"⟩⟩
        ⟨.ok "main", .ok "main", .ok "abc", "/tmp", true, true, true, .ok "",
          ProcOutcome.success, false⟩
        "/r/api" "/r" true).2 = (Indexer.mk [] (some ⟨[], "/cache"⟩)).cache :=
  (processRepo_cache_discipline ⟨[], some ⟨[], "/cache"⟩⟩
    ⟨.ok "main", .ok "main", .ok "abc", "/tmp", true, true, true, .ok "",
      ProcOutcome.success, false⟩
    "/r/api" "/r" true).2.1 rfl

/-! ## Case-folding commutes with the path algorithms

These lemmas drive the case-insensitivity half of the skip-matcher
properties: ASCII lowercasing is applied character-wise, fixes `/` and
`.`, maps nothing onto them, and preserves white space, so it commutes
with trimming, splitting, cleaning and joining. -/

theorem charToNat_ofNat (n : Nat) (h : n < 55296) : (Char.ofNat n).toNat = n := by
  simp [Char.ofNat, Nat.isValidChar, h, Char.toNat, Char.ofNatAux]
  rfl

theorem asciiLower_eq_slash_iff (c : Char) : asciiLower c = '/' ↔ c = '/' := by
  constructor
  · intro h
    unfold asciiLower at h
    split at h
    · next hr =>
      exfalso
      have h2 : (Char.ofNat (c.toNat + 32)).toNat = ('/' : Char).toNat := by rw [h]
      rw [charToNat_ofNat _ (by omega)] at h2
      have h3 : ('/' : Char).toNat = 47 := by decide
      omega
    · exact h
  · intro h
    subst h
    decide

theorem asciiLower_eq_dot_iff (c : Char) : asciiLower c = '.' ↔ c = '.' := by
  constructor
  · intro h
    unfold asciiLower at h
    split at h
    · next hr =>
      exfalso
      have h2 : (Char.ofNat (c.toNat + 32)).toNat = ('.' : Char).toNat := by rw [h]
      rw [charToNat_ofNat _ (by omega)] at h2
      have h3 : ('.' : Char).toNat = 46 := by decide
      omega
    · exact h
  · intro h
    subst h
    decide

theorem goIsSpace_asciiLower (c : Char) : goIsSpace (asciiLower c) = goIsSpace c := by
  unfold asciiLower
  split
  · next hr =>
    have h2 : (Char.ofNat (c.toNat + 32)).toNat = c.toNat + 32 :=
      charToNat_ofNat _ (by omega)
    simp only [goIsSpace, h2]
    rw [decide_eq_decide]
    constructor <;> intro h3 <;> omega
  · rfl

theorem asciiLower_dot : asciiLower '.' = '.' := by decide

theorem dropWhile_goIsSpace_map (l : List Char) :
    (l.map asciiLower).dropWhile goIsSpace = (l.dropWhile goIsSpace).map asciiLower := by
  rw [List.dropWhile_map]
  have h : goIsSpace ∘ asciiLower = goIsSpace := funext goIsSpace_asciiLower
  rw [h]

theorem goToLower_goTrimSpace (s : String) :
    goTrimSpace (goToLower s) = goToLower (goTrimSpace s) := by
  apply congrArg String.mk
  show ((((s.data.map asciiLower).dropWhile goIsSpace).reverse.dropWhile goIsSpace)).reverse =
    ((((s.data.dropWhile goIsSpace).reverse.dropWhile goIsSpace)).reverse).map asciiLower
  rw [dropWhile_goIsSpace_map, ← List.map_reverse, dropWhile_goIsSpace_map, ← List.map_reverse]

theorem goToLower_eq_empty_iff (s : String) : goToLower s = "" ↔ s = "" := by
  rw [string_eq_empty_iff, string_eq_empty_iff]
  show s.data.map asciiLower = [] ↔ s.data = []
  exact List.map_eq_nil_iff

theorem splitChar_ne_nil (sep : Char) (l : List Char) : splitChar sep l ≠ [] := by
  cases l with
  | nil => simp [splitChar]
  | cons c rest =>
    unfold splitChar
    by_cases hc : c = sep
    · simp [hc]
    · rw [if_neg hc]
      cases splitChar sep rest <;> simp

theorem splitChar_map (l : List Char) :
    splitChar '/' (l.map asciiLower) = (splitChar '/' l).map (List.map asciiLower) := by
  induction l with
  | nil => rfl
  | cons c rest ih =>
    by_cases hc : c = '/'
    · subst hc
      show splitChar '/' (asciiLower '/' :: rest.map asciiLower) = _
      rw [show asciiLower '/' = '/' from by decide]
      unfold splitChar
      rw [if_pos rfl, if_pos rfl, ih]
      rfl
    · have hfc : asciiLower c ≠ '/' := fun h => hc ((asciiLower_eq_slash_iff c).mp h)
      show splitChar '/' (asciiLower c :: rest.map asciiLower) = _
      unfold splitChar
      rw [if_neg hfc, if_neg hc, ih]
      cases hsp : splitChar '/' rest with
      | nil => exact absurd hsp (splitChar_ne_nil _ _)
      | cons g gs => simp

theorem map_asciiLower_eq_nil_iff (l : List Char) : l.map asciiLower = [] ↔ l = [] :=
  List.map_eq_nil_iff

theorem map_asciiLower_eq_dot_iff (l : List Char) : l.map asciiLower = ['.'] ↔ l = ['.'] := by
  cases l with
  | nil => simp
  | cons c rest =>
    simp only [List.map_cons, List.cons.injEq]
    constructor
    · rintro ⟨h1, h2⟩
      exact ⟨(asciiLower_eq_dot_iff c).mp h1, List.map_eq_nil_iff.mp h2⟩
    · rintro ⟨h1, h2⟩
      subst h1
      subst h2
      exact ⟨by decide, rfl⟩

theorem map_asciiLower_eq_dotdot_iff (l : List Char) :
    l.map asciiLower = ['.', '.'] ↔ l = ['.', '.'] := by
  cases l with
  | nil => simp
  | cons c rest =>
    simp only [List.map_cons, List.cons.injEq]
    constructor
    · rintro ⟨h1, h2⟩
      exact ⟨(asciiLower_eq_dot_iff c).mp h1, (map_asciiLower_eq_dot_iff rest).mp h2⟩
    · rintro ⟨h1, h2⟩
      subst h1
      subst h2
      exact ⟨by decide, by decide⟩

theorem cleanStack_map (r : Bool) :
    ∀ (elems stack : List (List Char)),
      cleanStack r (stack.map (List.map asciiLower)) (elems.map (List.map asciiLower)) =
        (cleanStack r stack elems).map (List.map asciiLower) := by
  intro elems
  induction elems with
  | nil =>
    intro stack
    simp [cleanStack]
  | cons e rest ih =>
    intro stack
    rw [List.map_cons]
    unfold cleanStack
    by_cases h1 : e = [] ∨ e = ['.']
    · rw [if_pos h1, if_pos (by
        rcases h1 with h1 | h1 <;> subst h1 <;> simp [asciiLower_dot])]
      exact ih stack
    · rw [if_neg h1, if_neg (by
        intro hx
        rcases hx with hx | hx
        · exact h1 (Or.inl ((map_asciiLower_eq_nil_iff e).mp hx))
        · exact h1 (Or.inr ((map_asciiLower_eq_dot_iff e).mp hx)))]
      by_cases h2 : e = ['.', '.']
      · rw [if_pos ((map_asciiLower_eq_dotdot_iff e).mpr h2), if_pos h2]
        cases stack with
        | nil =>
          cases r
          · exact ih [['.', '.']]
          · exact ih []
        | cons top stack2 =>
          show (if top.map asciiLower = ['.', '.'] then
              cleanStack r (['.', '.'] :: top.map asciiLower :: stack2.map (List.map asciiLower))
                (rest.map (List.map asciiLower))
            else cleanStack r (stack2.map (List.map asciiLower))
              (rest.map (List.map asciiLower))) =
            (if top = ['.', '.'] then cleanStack r (['.', '.'] :: top :: stack2) rest
              else cleanStack r stack2 rest).map (List.map asciiLower)
          by_cases h3 : top = ['.', '.']
          · rw [if_pos ((map_asciiLower_eq_dotdot_iff top).mpr h3), if_pos h3]
            exact ih (['.', '.'] :: top :: stack2)
          · rw [if_neg (fun hx => h3 ((map_asciiLower_eq_dotdot_iff top).mp hx)), if_neg h3]
            exact ih stack2
      · rw [if_neg (fun hx => h2 ((map_asciiLower_eq_dotdot_iff e).mp hx)), if_neg h2]
        exact ih (e :: stack)

theorem joinSlash_map (parts : List (List Char)) :
    joinSlash (parts.map (List.map asciiLower)) = (joinSlash parts).map asciiLower := by
  induction parts with
  | nil => rfl
  | cons e rest ih =>
    cases rest with
    | nil => rfl
    | cons e2 rest2 =>
      show (e.map asciiLower) ++ '/' :: joinSlash ((e2 :: rest2).map (List.map asciiLower)) =
        (e ++ '/' :: joinSlash (e2 :: rest2)).map asciiLower
      rw [ih, List.map_append, List.map_cons]
      rfl

theorem head_eq_slash_map (l : List Char) :
    ((l.map asciiLower).head? = some '/') = (l.head? = some '/') := by
  cases l with
  | nil => rfl
  | cons c rest =>
    simp only [List.map_cons, List.head?_cons, Option.some.injEq]
    exact propext (asciiLower_eq_slash_iff c)

theorem cleanList_map (l : List Char) :
    cleanList (l.map asciiLower) = (cleanList l).map asciiLower := by
  by_cases h0 : l = []
  · subst h0
    rfl
  · unfold cleanList
    rw [if_neg (fun hx => h0 (List.map_eq_nil_iff.mp hx)), if_neg h0]
    simp only [head_eq_slash_map]
    rw [splitChar_map]
    rw [show cleanStack (decide (l.head? = some '/')) []
        (List.map (List.map asciiLower) (splitChar '/' l)) =
        List.map (List.map asciiLower)
          (cleanStack (decide (l.head? = some '/')) [] (splitChar '/' l)) from
      cleanStack_map _ (splitChar '/' l) []]
    rw [joinSlash_map]
    by_cases hr : l.head? = some '/'
    · rw [if_pos hr, if_pos hr]
      rfl
    · rw [if_neg hr, if_neg hr]
      by_cases ho : joinSlash (cleanStack (decide (l.head? = some '/')) [] (splitChar '/' l)) = []
      · rw [if_pos (show List.map asciiLower (joinSlash (cleanStack
            (decide (l.head? = some '/')) [] (splitChar '/' l))) = [] from by rw [ho]; rfl),
          if_pos ho]
        rfl
      · rw [if_neg (fun hx => ho (List.map_eq_nil_iff.mp hx)), if_neg ho]

theorem goToLower_goClean (s : String) :
    goClean (goToLower s) = goToLower (goClean s) :=
  congrArg String.mk (cleanList_map s.data)

theorem goIsAbs_goToLower (s : String) : goIsAbs (goToLower s) = goIsAbs s := by
  unfold goIsAbs goToLower
  show decide ((s.data.map asciiLower).head? = some '/') = decide (s.data.head? = some '/')
  exact decide_eq_decide.mpr (iff_of_eq (head_eq_slash_map s.data))

theorem goToLower_data_eq {x y : String} (h : goToLower x = goToLower y) :
    x.data.map asciiLower = y.data.map asciiLower :=
  congrArg String.data h

theorem goToLower_goJoin_clean (root : String) {x y : String} (h : goToLower x = goToLower y) :
    goToLower (goClean (goJoin root x)) = goToLower (goClean (goJoin root y)) := by
  have hxe : (x = "") ↔ (y = "") := by
    rw [← goToLower_eq_empty_iff x, ← goToLower_eq_empty_iff y, h]
  have key : ∀ z : String, goToLower (goClean (goClean z)) =
      goClean (goClean (goToLower z)) := by
    intro z
    rw [← goToLower_goClean, ← goToLower_goClean]
  by_cases hx : x = ""
  · have hy : y = "" := hxe.mp hx
    rw [hx, hy]
  · have hy : y ≠ "" := fun h0 => hx (hxe.mpr h0)
    by_cases hroot : root = ""
    · have hjx : goJoin root x = goClean x := by
        unfold goJoin
        rw [if_neg (fun hand => hx hand.2), if_pos hroot]
      have hjy : goJoin root y = goClean y := by
        unfold goJoin
        rw [if_neg (fun hand => hy hand.2), if_pos hroot]
      rw [hjx, hjy, key x, key y, h]
    · have hjx : goJoin root x = goClean ⟨root.data ++ '/' :: x.data⟩ := by
        unfold goJoin
        rw [if_neg (fun hand => hx hand.2), if_neg hroot, if_neg hx]
      have hjy : goJoin root y = goClean ⟨root.data ++ '/' :: y.data⟩ := by
        unfold goJoin
        rw [if_neg (fun hand => hy hand.2), if_neg hroot, if_neg hy]
      have hlow : goToLower ⟨root.data ++ '/' :: x.data⟩ =
          goToLower ⟨root.data ++ '/' :: y.data⟩ := by
        apply congrArg String.mk
        show (root.data ++ '/' :: x.data).map asciiLower =
          (root.data ++ '/' :: y.data).map asciiLower
        rw [List.map_append, List.map_append, List.map_cons, List.map_cons,
          goToLower_data_eq h]
      rw [hjx, hjy, key ⟨root.data ++ '/' :: x.data⟩, key ⟨root.data ++ '/' :: y.data⟩, hlow]

theorem skipMatch_fst_congr (rootDir sL bL rL aL : String) :
    ∀ (ps qs : List String), ps.map goToLower = qs.map goToLower →
      (skipMatch rootDir sL bL rL aL ps).1 = (skipMatch rootDir sL bL rL aL qs).1 := by
  intro ps
  induction ps with
  | nil =>
    intro qs h
    cases qs with
    | nil => rfl
    | cons q qs2 => simp at h
  | cons p ps2 ih =>
    intro qs h
    cases qs with
    | nil => simp at h
    | cons q qs2 =>
      simp only [List.map_cons, List.cons.injEq] at h
      obtain ⟨hpq, htl⟩ := h
      have hT : goToLower (goTrimSpace p) = goToLower (goTrimSpace q) := by
        rw [← goToLower_goTrimSpace, ← goToLower_goTrimSpace, hpq]
      have hE : (goTrimSpace p = "") ↔ (goTrimSpace q = "") := by
        rw [← goToLower_eq_empty_iff (goTrimSpace p), ← goToLower_eq_empty_iff (goTrimSpace q),
          hT]
      have hC : goToLower (goClean (goTrimSpace p)) = goToLower (goClean (goTrimSpace q)) := by
        rw [← goToLower_goClean, ← goToLower_goClean, hT]
      have hA : goIsAbs (goClean (goTrimSpace p)) = goIsAbs (goClean (goTrimSpace q)) := by
        rw [← goIsAbs_goToLower (goClean (goTrimSpace p)),
          ← goIsAbs_goToLower (goClean (goTrimSpace q)), hC]
      have hJ : goToLower (goClean (goJoin rootDir (goClean (goTrimSpace p)))) =
          goToLower (goClean (goJoin rootDir (goClean (goTrimSpace q)))) :=
        goToLower_goJoin_clean rootDir hC
      unfold skipMatch
      by_cases h1 : goTrimSpace p = ""
      · rw [if_pos h1]
        rw [if_pos (hE.mp h1)]
        exact ih qs2 htl
      · rw [if_neg h1]
        rw [if_neg (fun h0 => h1 (hE.mpr h0))]
        by_cases h2 : goToLower (goTrimSpace p) = sL ∨ goToLower (goTrimSpace p) = bL ∨
            goToLower (goTrimSpace p) = rL
        · rw [if_pos h2]
          rw [if_pos (show goToLower (goTrimSpace q) = sL ∨ goToLower (goTrimSpace q) = bL ∨
            goToLower (goTrimSpace q) = rL from by rw [← hT]; exact h2)]
        · rw [if_neg h2]
          rw [if_neg (show ¬(goToLower (goTrimSpace q) = sL ∨ goToLower (goTrimSpace q) = bL ∨
            goToLower (goTrimSpace q) = rL) from by rw [← hT]; exact h2)]
          by_cases h3 : goToLower (goClean (goTrimSpace p)) = aL
          · rw [if_pos h3]
            rw [if_pos (show goToLower (goClean (goTrimSpace q)) = aL from by
              rw [← hC]; exact h3)]
          · rw [if_neg h3]
            rw [if_neg (show ¬ goToLower (goClean (goTrimSpace q)) = aL from by
              rw [← hC]; exact h3)]
            by_cases h4 : goToLower (goToSlash (goClean (goTrimSpace p))) = rL
            · rw [if_pos h4]
              rw [if_pos (show goToLower (goToSlash (goClean (goTrimSpace q))) = rL from by
                show goToLower (goClean (goTrimSpace q)) = rL
                rw [← hC]; exact h4)]
            · rw [if_neg h4]
              rw [if_neg (show ¬ goToLower (goToSlash (goClean (goTrimSpace q))) = rL from by
                show ¬ goToLower (goClean (goTrimSpace q)) = rL
                rw [← hC]; exact h4)]
              by_cases h5 : goIsAbs (goClean (goTrimSpace p)) = false
              · rw [if_pos h5]
                rw [if_pos (show goIsAbs (goClean (goTrimSpace q)) = false from by
                  rw [hA] at h5; exact h5)]
                by_cases h6 : goToLower (goClean (goJoin rootDir (goClean (goTrimSpace p)))) = aL
                · rw [if_pos h6]
                  rw [if_pos (show goToLower (goClean (goJoin rootDir
                    (goClean (goTrimSpace q)))) = aL from by rw [← hJ]; exact h6)]
                · rw [if_neg h6]
                  rw [if_neg (show ¬ goToLower (goClean (goJoin rootDir
                    (goClean (goTrimSpace q)))) = aL from by rw [← hJ]; exact h6)]
                  exact ih qs2 htl
              · rw [if_neg h5]
                rw [if_neg (show ¬ goIsAbs (goClean (goTrimSpace q)) = false from by
                  rw [hA] at h5; exact h5)]
                exact ih qs2 htl

/-- Counterexample for C7 as stated: the pattern `"api"` matches the
repository `/r/services/api` (by base name) but `"./api"` does not, so
the skip decision is not invariant under prefixing a pattern with
`./`. -/
theorem shouldSkipRepo_dotSlash_counterexample :
    ¬ (((Indexer.mk ["api"] none).shouldSkipRepo "/r" "/r/services/api" "services_api").1 =
       ((Indexer.mk ["./api"] none).shouldSkipRepo "/r" "/r/services/api" "services_api").1) := by
  decide

/-- C7 (amended): the skip decision is invariant under case variation
of the patterns (pattern lists with equal ASCII lowercasings decide
identically), and the spec's example pair holds: `"services/api"` and
`"./services/api"` both match a repository at root-relative path
`services/api`; invariance under a `./` prefix does not hold for
arbitrary patterns (see the counterexample). -/
theorem shouldSkipRepo_case_fold_and_dotSlash_example
    (cache : Option commitCache) (rootDir repoDir slug : String) (ps qs : List String)
    (h : ps.map goToLower = qs.map goToLower) :
    (((Indexer.mk ps cache).shouldSkipRepo rootDir repoDir slug).1 =
      ((Indexer.mk qs cache).shouldSkipRepo rootDir repoDir slug).1) ∧
    (((Indexer.mk ["services/api"] cache).shouldSkipRepo
        "/r" "/r/services/api" "services_api").1 = true ∧
      ((Indexer.mk ["./services/api"] cache).shouldSkipRepo
        "/r" "/r/services/api" "services_api").1 = true) := by
  constructor
  · unfold Indexer.shouldSkipRepo
    by_cases h0 : ps = []
    · subst h0
      cases qs with
      | nil => rfl
      | cons q qs2 => simp at h
    · have h0q : qs ≠ [] := by
        intro hq
        subst hq
        simp at h
        exact h0 h
      rw [if_neg h0, if_neg h0q]
      exact skipMatch_fst_congr _ _ _ _ _ ps qs h
  · exact ⟨rfl, rfl⟩

/-- Witness for C7 at concrete inputs: an upper-cased pattern decides
like its lower-cased form, and the example pair both match. -/
theorem shouldSkipRepo_case_fold_witness :
    (((Indexer.mk ["SERVICES/API"] none).shouldSkipRepo
        "/r" "/r/services/api" "services_api").1 =
      ((Indexer.mk ["services/api"] none).shouldSkipRepo
        "/r" "/r/services/api" "services_api").1) ∧
    (((Indexer.mk ["services/api"] none).shouldSkipRepo
        "/r" "/r/services/api" "services_api").1 = true ∧
      ((Indexer.mk ["./services/api"] none).shouldSkipRepo
        "/r" "/r/services/api" "services_api").1 = true) :=
  shouldSkipRepo_case_fold_and_dotSlash_example none "/r" "/r/services/api" "services_api"
    ["SERVICES/API"] ["services/api"] (by decide)
